import Mathlib

/-!
Shallow embedding of the core of `git_branch_manager.go` (the `ggm` git
branch manager): branch-list parsing, pattern and index selection,
current-branch filtering, the confirmation loop and batch deletion,
together with theorems checking the specification's claims about them.

Go strings are modelled as lists of characters (`Str`); the external
`git` binary is modelled as an oracle parameter where needed.
-/

namespace GGM

/-- Go strings, modelled as their character sequences. -/
abbrev Str := List Char

/-- `strings.HasPrefix s p`: `p` is a prefix of `s`. -/
def startsWith : Str → Str → Bool
  | _, [] => true
  | [], _ :: _ => false
  | c :: s, d :: p => c == d && startsWith s p

/-- `strings.HasSuffix s p`: `p` is a suffix of `s`. -/
def endsWith (s p : Str) : Bool :=
  startsWith s.reverse p.reverse

/-- `strings.Contains s sub`: `sub` occurs inside `s`. -/
def containsStr : Str → Str → Bool
  | [], sub => sub.isEmpty
  | c :: s, sub => startsWith (c :: s) sub || containsStr s sub

/-- `strings.Trim s cutset` for a one-character cutset: remove every
leading and every trailing occurrence of `c`. -/
def trimChar (c : Char) (s : Str) : Str :=
  ((s.dropWhile (· == c)).reverse.dropWhile (· == c)).reverse

theorem startsWith_iff (s p : Str) : startsWith s p = true ↔ p <+: s := by
  induction p generalizing s with
  | nil => simp [startsWith]
  | cons d p ih =>
    cases s with
    | nil => simp [startsWith]
    | cons c s =>
      simp only [startsWith, Bool.and_eq_true, beq_iff_eq, ih,
        List.cons_prefix_cons]
      exact ⟨fun ⟨h1, h2⟩ => ⟨h1.symm, h2⟩, fun ⟨h1, h2⟩ => ⟨h1.symm, h2⟩⟩

theorem endsWith_iff (s p : Str) : endsWith s p = true ↔ p <:+ s := by
  rw [endsWith, startsWith_iff, List.reverse_prefix]

theorem infix_cons_char (c : Char) (s sub : Str) :
    sub <:+: c :: s ↔ sub <+: c :: s ∨ sub <:+: s := by
  constructor
  · rintro ⟨pre, suf, h⟩
    cases pre with
    | nil => exact Or.inl ⟨suf, by simpa using h⟩
    | cons x pre =>
      right
      refine ⟨pre, suf, ?_⟩
      have := h
      simp only [List.cons_append] at this
      exact (List.cons.injEq _ _ _ _ ▸ this).2
  · rintro (⟨suf, h⟩ | hinf)
    · exact ⟨[], suf, by simpa using h⟩
    · exact hinf.trans (List.infix_cons (List.infix_refl s))

theorem containsStr_iff (s sub : Str) : containsStr s sub = true ↔ sub <:+: s := by
  induction s with
  | nil => simp [containsStr, List.isEmpty_iff]
  | cons c s ih =>
    simp [containsStr, Bool.or_eq_true, startsWith_iff, ih, infix_cons_char]

theorem trimChar_of_not_starts_ends (c : Char) (s : Str)
    (h1 : startsWith s [c] = false) (h2 : endsWith s [c] = false) :
    trimChar c s = s := by
  have hd : s.dropWhile (· == c) = s := by
    cases s with
    | nil => rfl
    | cons x xs =>
      have : (x == c) = false := by
        by_contra hx
        have : x = c := by
          cases hxc : (x == c) with
          | false => exact absurd hxc hx
          | true => exact beq_iff_eq.mp hxc
        subst this
        simp [startsWith] at h1
      simp [List.dropWhile, this]
  have hrev : s.reverse.dropWhile (· == c) = s.reverse := by
    cases hs : s.reverse with
    | nil => rfl
    | cons x xs =>
      have hx : (x == c) = false := by
        by_contra hxne
        have hxc : x = c := by
          cases hb : (x == c) with
          | false => exact absurd hb hxne
          | true => exact beq_iff_eq.mp hb
        subst hxc
        rw [endsWith, hs] at h2
        simp [startsWith] at h2
      simp [List.dropWhile, hx]
  rw [trimChar, hd, hrev, List.reverse_reverse]

/-- The matching rule of `deleteBranchesByPattern`: inspect the pattern for a
leading and/or trailing `*`, strip the `*` markers with `strings.Trim`, then
match by substring containment, suffix, the start of the name, or equality. -/
def matchesPattern (pat branch : Str) : Bool :=
  let isPrefixWildcard := startsWith pat ['*']
  let isSuffixWildcard := endsWith pat ['*']
  let bare := trimChar '*' pat
  if isPrefixWildcard && isSuffixWildcard then containsStr branch bare
  else if isPrefixWildcard then endsWith branch bare
  else if isSuffixWildcard then startsWith branch bare
  else branch == bare

/-- The selection loop of `deleteBranchesByPattern`: collect the matching
branches in enumeration order. -/
def patternSelection (branches : List Str) (pat : Str) : List Str :=
  branches.filter (fun b => matchesPattern pat b)

/-- C2: pattern selection strips the leading and trailing `*` markers to get
the bare pattern; with both markers a branch matches iff the bare pattern is
a substring, with only a leading `*` iff the name ends with it, with only a
trailing `*` iff the name starts with it, with no marker iff the name equals
the pattern; the pattern `*` matches every branch, and the spec's four
example selections come out as stated. -/
theorem c2_pattern_matching (pat b : Str) :
    (startsWith pat ['*'] = true → endsWith pat ['*'] = true →
      (matchesPattern pat b = true ↔ trimChar '*' pat <:+: b)) ∧
    (startsWith pat ['*'] = true → endsWith pat ['*'] = false →
      (matchesPattern pat b = true ↔ trimChar '*' pat <:+ b)) ∧
    (startsWith pat ['*'] = false → endsWith pat ['*'] = true →
      (matchesPattern pat b = true ↔ trimChar '*' pat <+: b)) ∧
    (startsWith pat ['*'] = false → endsWith pat ['*'] = false →
      (matchesPattern pat b = true ↔ b = pat)) ∧
    matchesPattern ['*'] b = true ∧
    patternSelection [("test-a").data, ("test-b").data, ("other").data]
      ("test*").data = [("test-a").data, ("test-b").data] ∧
    patternSelection [("test-a").data, ("test-b").data, ("other").data]
      ("*-a").data = [("test-a").data] ∧
    patternSelection [("test-a").data, ("test-b").data, ("other").data]
      ("*est*").data = [("test-a").data, ("test-b").data] ∧
    patternSelection [("test-a").data, ("test-b").data, ("other").data]
      ("test-a").data = [("test-a").data] := by
  refine ⟨?_, ?_, ?_, ?_, ?_, by decide, by decide, by decide, by decide⟩
  · intro h1 h2
    simp [matchesPattern, h1, h2, containsStr_iff]
  · intro h1 h2
    simp [matchesPattern, h1, h2, endsWith_iff]
  · intro h1 h2
    simp [matchesPattern, h1, h2, startsWith_iff]
  · intro h1 h2
    have ht := trimChar_of_not_starts_ends '*' pat h1 h2
    rw [matchesPattern]
    simp [h1, h2, ht]
  · rw [matchesPattern]
    simp [show startsWith ['*'] ['*'] = true from by decide,
      show endsWith ['*'] ['*'] = true from by decide,
      show trimChar '*' ['*'] = [] from by decide,
      containsStr_iff, List.nil_infix]

/-- C2 witness: a concrete instance of each hypothesis-guarded case. -/
theorem c2_pattern_matching_witness :
    matchesPattern ("*est*").data ("test-a").data = true ∧
    matchesPattern ("*-a").data ("test-a").data = true ∧
    matchesPattern ("test*").data ("test-b").data = true ∧
    matchesPattern ("other").data ("other").data = true := by
  refine ⟨?_, ?_, ?_, ?_⟩
  · exact ((c2_pattern_matching ("*est*").data ("test-a").data).1
      (by decide) (by decide)).mpr (by decide)
  · exact (((c2_pattern_matching ("*-a").data ("test-a").data).2.1)
      (by decide) (by decide)).mpr (by decide)
  · exact (((c2_pattern_matching ("test*").data ("test-b").data).2.2.1)
      (by decide) (by decide)).mpr (by decide)
  · exact (((c2_pattern_matching ("other").data ("other").data).2.2.2.1)
      (by decide) (by decide)).mpr (by decide)

/-- The characters `isIndexSpec` keeps: digits, comma, hyphen. -/
def indexSpecChars : Str := ("0123456789,-").data

/-- `isIndexSpec`: keep only digits, commas and hyphens (`strings.Map`
dropping every other rune); the argument is an index spec iff nothing was
dropped and it is non-empty. -/
def isIndexSpec (input : Str) : Bool :=
  let cleaned := input.filter (fun c => indexSpecChars.contains c)
  cleaned.length == input.length && decide (0 < input.length)

/-- The two branches of the `delete`/`Delete` command in `main`. -/
inductive DeleteMode
  | byIndexes
  | byPattern
deriving DecidableEq

/-- `main`'s routing of the argument of `delete`/`Delete`. -/
def deleteDispatch (arg : Str) : DeleteMode :=
  if isIndexSpec arg then .byIndexes else .byPattern

theorem mem_indexSpecChars (c : Char) :
    c ∈ indexSpecChars ↔ (c.isDigit = true ∨ c = ',' ∨ c = '-') := by
  constructor
  · intro h
    have h2 : c ∈ ['0', '1', '2', '3', '4', '5', '6', '7', '8', '9', ',', '-'] := by
      simpa [show indexSpecChars
        = ['0', '1', '2', '3', '4', '5', '6', '7', '8', '9', ',', '-'] from rfl]
        using h
    fin_cases h2 <;> simp
  · rintro (h | rfl | rfl)
    · have h1 : '0' ≤ c ∧ c ≤ '9' := by
        rw [Char.isDigit] at h
        simp only [Bool.and_eq_true, decide_eq_true_eq] at h
        exact h
      have h2 : 48 ≤ c.toNat ∧ c.toNat ≤ 57 := ⟨h1.1, h1.2⟩
      have h3 : Char.ofNat c.toNat = c := Char.ofNat_toNat c
      obtain ⟨ha, hb⟩ := h2
      interval_cases hn : c.toNat <;> rw [← h3] <;> decide
    · decide
    · decide

theorem isIndexSpec_iff (input : Str) :
    isIndexSpec input = true ↔
      (input ≠ [] ∧ ∀ c ∈ input, c ∈ indexSpecChars) := by
  rw [isIndexSpec]
  simp only [Bool.and_eq_true, beq_iff_eq, decide_eq_true_eq]
  constructor
  · rintro ⟨hlen, hpos⟩
    have hsub : (input.filter (fun c => indexSpecChars.contains c)).Sublist input :=
      List.filter_sublist input
    have heq := hsub.eq_of_length hlen
    refine ⟨by rintro rfl; simp at hpos, fun c hc => ?_⟩
    have := (List.filter_eq_self.mp heq) c hc
    simpa [List.contains] using this
  · rintro ⟨hne, hall⟩
    constructor
    · have : input.filter (fun c => indexSpecChars.contains c) = input :=
        List.filter_eq_self.mpr (fun c hc => by
          simpa [List.contains] using hall c hc)
      rw [this]
    · cases input with
      | nil => exact absurd rfl hne
      | cons a l => simp

/-- C8: a non-empty `delete` argument is routed to index mode iff every
character is a digit, a comma or a hyphen; any argument with any other
character (such as `*`) goes to pattern mode, as do empty arguments. -/
theorem c8_index_spec_detection (input : Str) :
    (deleteDispatch input = DeleteMode.byIndexes ↔
      (input ≠ [] ∧ ∀ c ∈ input, (c.isDigit = true ∨ c = ',' ∨ c = '-'))) ∧
    ('*' ∈ input → deleteDispatch input = DeleteMode.byPattern) ∧
    deleteDispatch ("1,3-5").data = DeleteMode.byIndexes ∧
    deleteDispatch ("test*").data = DeleteMode.byPattern ∧
    deleteDispatch [] = DeleteMode.byPattern := by
  have hkey : deleteDispatch input = DeleteMode.byIndexes ↔
      (input ≠ [] ∧ ∀ c ∈ input, (c.isDigit = true ∨ c = ',' ∨ c = '-')) := by
    rw [deleteDispatch]
    constructor
    · intro h
      by_cases hspec : isIndexSpec input = true
      · obtain ⟨h1, h2⟩ := (isIndexSpec_iff input).mp hspec
        exact ⟨h1, fun c hc => (mem_indexSpecChars c).mp (h2 c hc)⟩
      · rw [if_neg (by simpa using hspec)] at h
        exact absurd h (by simp)
    · rintro ⟨h1, h2⟩
      rw [if_pos ((isIndexSpec_iff input).mpr
        ⟨h1, fun c hc => (mem_indexSpecChars c).mpr (h2 c hc)⟩)]
  refine ⟨hkey, ?_, by decide, by decide, by decide⟩
  intro hstar
  cases hmode : deleteDispatch input with
  | byPattern => rfl
  | byIndexes =>
    have := (hkey.mp hmode).2 '*' hstar
    simp at this

/-- C8 witness: the routing equivalence applied at the concrete argument
"2-4", whose characters are all digits or a hyphen. -/
theorem c8_index_spec_detection_witness :
    ('*' ∈ ("x*").data → deleteDispatch ("x*").data = DeleteMode.byPattern) ∧
    deleteDispatch ("2-4").data = DeleteMode.byIndexes :=
  ⟨(c8_index_spec_detection ("x*").data).2.1,
    (c8_index_spec_detection ("2-4").data).1.mpr ⟨by decide, by decide⟩⟩

/-- Go's `unicode.IsSpace` on the characters `strings.TrimSpace` trims. -/
def goIsSpace (c : Char) : Bool :=
  c == ' ' || c == '\t' || c == '\n' || c == '\u000B' || c == '\u000C' ||
  c == '\r' || c == '\u0085' || c == '\u00A0' || c == '\u1680' ||
  (decide ('\u2000' ≤ c) && decide (c ≤ '\u200A')) || c == '\u2028' ||
  c == '\u2029' || c == '\u202F' || c == '\u205F' || c == '\u3000'

/-- `strings.TrimSpace`: drop whitespace from both ends. -/
def trimSpace (s : Str) : Str :=
  ((s.dropWhile goIsSpace).reverse.dropWhile goIsSpace).reverse

/-- `strings.Split` for a one-character separator. -/
def splitOnChar (sep : Char) : Str → List Str
  | [] => [[]]
  | c :: rest =>
    if c = sep then [] :: splitOnChar sep rest
    else
      match splitOnChar sep rest with
      | [] => [[c]]
      | t :: ts => (c :: t) :: ts

theorem splitOnChar_ne_nil (sep : Char) (s : Str) : splitOnChar sep s ≠ [] := by
  cases s with
  | nil => simp [splitOnChar]
  | cons c rest =>
    rw [splitOnChar]
    by_cases h : c = sep
    · simp [h]
    · rw [if_neg h]
      cases splitOnChar sep rest <;> simp

/-- One iteration of the parsing loop of `listBranches`: trim the line; a
leading `*` is stripped (dropping one character, then trimming again) and
marks the line as carrying the current branch. -/
def processLine (line : Str) : Str × Bool :=
  let t := trimSpace line
  if startsWith t ['*'] then (trimSpace t.tail, true) else (t, false)

/-- The output parsing of `listBranches`: split on newlines and fold the
loop, collecting the non-empty branch names and tracking the current
branch (initially empty). -/
def parseBranches (output : Str) : List Str × Str :=
  (splitOnChar '\n' output).foldl
    (fun acc line =>
      let p := processLine line
      let current := if p.2 then p.1 else acc.2
      if p.1 ≠ [] then (acc.1 ++ [p.1], current) else (acc.1, current))
    ([], [])

/-- Modelled from the spec's words, for comparison with `parseBranches`:
the enumeration is the per-line processed text with empty results
discarded. -/
def specEntries (output : Str) : List Str :=
  ((splitOnChar '\n' output).map (fun l => (processLine l).1)).filter
    (fun t => t ≠ [])

/-- The processed texts of the lines carrying the current-branch marker. -/
def starredTexts (lines : List Str) : List Str :=
  lines.filterMap
    (fun l => if (processLine l).2 then some (processLine l).1 else none)

/-- Modelled from the spec's words, for comparison with `parseBranches`:
the current branch is the text of the last marker-carrying line, or empty
when there is none. -/
def specCurrent (output : Str) : Str :=
  ((starredTexts (splitOnChar '\n' output)).getLast?).getD []

theorem getLast?_cons_getD {α : Type} (a : α) (l : List α) :
    (a :: l).getLast? = some (l.getLast?.getD a) := by
  induction l generalizing a with
  | nil => rfl
  | cons b l ih =>
    rw [List.getLast?_cons_cons, ih b]
    simp

theorem parseBranches_foldl (lines : List Str) (acc : List Str × Str) :
    lines.foldl
      (fun acc line =>
        let p := processLine line
        let current := if p.2 then p.1 else acc.2
        if p.1 ≠ [] then (acc.1 ++ [p.1], current) else (acc.1, current))
      acc
    = (acc.1 ++ ((lines.map (fun l => (processLine l).1)).filter (fun t => t ≠ [])),
       ((starredTexts lines).getLast?).getD acc.2) := by
  induction lines generalizing acc with
  | nil => simp [starredTexts]
  | cons l rest ih =>
    rw [List.foldl_cons, ih]
    have hstar : starredTexts (l :: rest)
        = (if (processLine l).2 then some (processLine l).1 else none).toList
          ++ starredTexts rest := by
      rw [starredTexts, List.filterMap_cons]
      cases (processLine l).2 <;> simp [starredTexts]
    by_cases h2 : (processLine l).2 <;> by_cases h1 : (processLine l).1 = [] <;>
      simp [hstar, h1, h2, getLast?_cons_getD]

/-- C9: enumeration splits the tool output into lines, trims each line, a
leading-asterisk line (marker stripped, trimmed) becomes both a normal
entry and the current branch (the last such line wins), and empty lines
never appear in the result. -/
theorem c9_branch_enumeration (output : Str) :
    parseBranches output = (specEntries output, specCurrent output) ∧
    [] ∉ (parseBranches output).1 ∧
    (∀ line ∈ splitOnChar '\n' output,
      (processLine line).1 ≠ [] → (processLine line).1 ∈ (parseBranches output).1) ∧
    parseBranches (("  main\n* dev\n").data)
      = ([("main").data, ("dev").data], ("dev").data) := by
  have hfold := parseBranches_foldl (splitOnChar '\n' output) ([], [])
  have hmain : parseBranches output = (specEntries output, specCurrent output) := by
    rw [parseBranches, hfold]
    simp [specEntries, specCurrent]
  refine ⟨hmain, ?_, ?_, by decide⟩
  · rw [hmain]
    simp [specEntries]
  · intro line hline hne
    rw [hmain]
    simp only [specEntries, List.mem_filter, List.mem_map]
    exact ⟨⟨line, hline, rfl⟩, by simpa using hne⟩

/-- C9 witness: the entry-membership part applied at a concrete output. -/
theorem c9_branch_enumeration_witness :
    ("dev").data ∈ (parseBranches (("* dev\nmain\n").data)).1 := by
  have h := (c9_branch_enumeration (("* dev\nmain\n").data)).2.2.1
    (("* dev").data) (by decide) (by decide)
  simpa using h

/-- `filterCurrentBranch`: drop every occurrence of the current branch from
the candidates, remembering (second component) whether one was seen, in
which case the protection notice is printed. -/
def filterCurrentBranch (branchesToDelete : List Str) (currentBranch : Str) :
    List Str × Bool :=
  branchesToDelete.foldl
    (fun acc b => if b == currentBranch then (acc.1, true) else (acc.1 ++ [b], acc.2))
    ([], false)

theorem filterCurrentBranch_foldl (bs : List Str) (c : Str) (acc : List Str × Bool) :
    bs.foldl
      (fun acc b => if b == c then (acc.1, true) else (acc.1 ++ [b], acc.2)) acc
    = (acc.1 ++ bs.filter (fun b => b != c), acc.2 || decide (c ∈ bs)) := by
  induction bs generalizing acc with
  | nil => simp
  | cons b rest ih =>
    rw [List.foldl_cons]
    by_cases hb : b = c
    · subst hb
      rw [if_pos (by simp), ih]
      simp
    · rw [if_neg (by simpa using hb), ih]
      simp [List.filter_cons, hb, Ne.symm hb]

/-- `confirmDeletion` over the successive strings read from standard input:
loop until an exact (case-sensitive) "yes" or "no"; `none` models the loop
still waiting after the given input is exhausted. -/
def confirmDeletion : List Str → Option Bool
  | [] => none
  | i :: rest =>
    if i == ("yes").data then some true
    else if i == ("no").data then some false
    else confirmDeletion rest

/-- A deletion report: the counts printed by `deleteBranches` and the
failure map, plus the trace of branches for which `deleteBranch` was
invoked (the batch's side effects, in order). -/
structure DeletionReport where
  total : Nat
  deletedCount : Int
  failed : List (Str × Str)
  attempts : List Str
deriving DecidableEq

/-- The failure map `failed[branch] = msg` of `_deleteBranches`, modelled
as an association list; Go map assignment replaces the entry of an
existing key. -/
def mapInsert : List (Str × Str) → Str → Str → List (Str × Str)
  | [], k, v => [(k, v)]
  | (k0, v0) :: rest, k, v =>
    if k0 == k then (k, v) :: rest else (k0, v0) :: mapInsert rest k v

/-- `_deleteBranches`: attempt deletion of every branch in order, recording
failures in the map and every invocation in the trace. `gitDelete b = none`
models a successful `git branch -d b` (or `-D b`); `some msg` models a failure whose
error text is `msg` (the `force` flag only selects which git command the
oracle stands for). -/
def deleteBranchesLoop (gitDelete : Str → Option Str) (branches : List Str) :
    List (Str × Str) × List Str :=
  branches.foldl
    (fun acc b =>
      match gitDelete b with
      | some msg => (mapInsert acc.1 b msg, acc.2 ++ [b])
      | none => (acc.1, acc.2 ++ [b]))
    ([], [])

/-- `deleteBranches`: run the batch and assemble the printed report,
`deletedCount = len(toDelete) - len(failed)`. -/
def deleteBranches (gitDelete : Str → Option Str) (toDelete : List Str) :
    DeletionReport :=
  let r := deleteBranchesLoop gitDelete toDelete
  { total := toDelete.length
    deletedCount := (toDelete.length : Int) - r.1.length
    failed := r.1
    attempts := r.2 }

/-- The terminal states of `confirmAndDeleteBranches`. -/
inductive RunResult
  | nothingToDo
  | cancelled
  | blocked
  | executed (report : DeletionReport)
deriving DecidableEq

/-- Outcome of one `confirmAndDeleteBranches` invocation: terminal state,
whether the current-branch protection notice was printed, and the deletion
attempts performed. -/
structure RunOutcome where
  result : RunResult
  protectedNotice : Bool
  attempts : List Str
deriving DecidableEq

/-- `confirmAndDeleteBranches`: filter the current branch, stop when
nothing remains, otherwise prompt and act on the confirmation answer. -/
def confirmAndDeleteBranches (gitDelete : Str → Option Str)
    (branchesToDelete : List Str) (currentBranch : Str)
    (inputs : List Str) : RunOutcome :=
  let fc := filterCurrentBranch branchesToDelete currentBranch
  if fc.1 = [] then ⟨.nothingToDo, fc.2, []⟩
  else
    match confirmDeletion inputs with
    | some true =>
      let r := deleteBranches gitDelete fc.1
      ⟨.executed r, fc.2, r.attempts⟩
    | some false => ⟨.cancelled, fc.2, []⟩
    | none => ⟨.blocked, fc.2, []⟩

theorem deleteBranchesLoop_attempts (gitDelete : Str → Option Str)
    (branches : List Str) :
    (deleteBranchesLoop gitDelete branches).2 = branches := by
  have key : ∀ (bs : List Str) (acc : List (Str × Str) × List Str),
      (bs.foldl
        (fun acc b =>
          match gitDelete b with
          | some msg => (mapInsert acc.1 b msg, acc.2 ++ [b])
          | none => (acc.1, acc.2 ++ [b])) acc).2 = acc.2 ++ bs := by
    intro bs
    induction bs with
    | nil => simp
    | cons b rest ih =>
      intro acc
      rw [List.foldl_cons]
      cases gitDelete b <;> simp [ih]
  simpa using key branches ([], [])

/-- C1: the current branch never survives filtering — the filtered list is
the candidates with every occurrence of the current branch removed, the
protection notice is printed exactly when it occurred, candidates without
it pass through unchanged, and no deletion attempt of any run ever
targets the current branch. -/
theorem c1_current_branch_protection (bs : List Str) (c : Str) :
    c ∉ (filterCurrentBranch bs c).1 ∧
    (filterCurrentBranch bs c).1 = bs.filter (fun b => b != c) ∧
    ((filterCurrentBranch bs c).2 = true ↔ c ∈ bs) ∧
    (c ∉ bs → (filterCurrentBranch bs c).1 = bs) ∧
    (∀ (gitDelete : Str → Option Str) (inputs : List Str),
      c ∉ (confirmAndDeleteBranches gitDelete bs c inputs).attempts) := by
  have hfc : filterCurrentBranch bs c
      = (bs.filter (fun b => b != c), decide (c ∈ bs)) := by
    rw [filterCurrentBranch, filterCurrentBranch_foldl]
    simp
  have hnotmem : c ∉ (filterCurrentBranch bs c).1 := by
    rw [hfc]
    simp
  refine ⟨hnotmem, by rw [hfc], by rw [hfc]; simp, ?_, ?_⟩
  · intro hc
    rw [hfc]
    simp only
    exact List.filter_eq_self.mpr (fun b hb => by
      simp only [bne_iff_ne, ne_eq, decide_eq_true_eq]
      rintro rfl
      exact hc hb)
  · intro gitDelete inputs
    rw [confirmAndDeleteBranches]
    simp only
    by_cases hemp : (filterCurrentBranch bs c).1 = []
    · rw [if_pos hemp]
      simp
    · rw [if_neg hemp]
      cases confirmDeletion inputs with
      | none => simp
      | some y =>
        cases y with
        | false => simp
        | true =>
          simp only [deleteBranches, deleteBranchesLoop_attempts]
          exact hnotmem

/-- C1 witness: a current branch among the candidates is filtered out and
reported; candidates without it pass unchanged. -/
theorem c1_current_branch_protection_witness :
    (filterCurrentBranch [("a").data, ("cur").data] ("cur").data).1
      = [("a").data] ∧
    (filterCurrentBranch [("a").data] ("cur").data).1 = [("a").data] := by
  constructor
  · rw [(c1_current_branch_protection [("a").data, ("cur").data] ("cur").data).2.1]
    decide
  · exact (c1_current_branch_protection [("a").data] ("cur").data).2.2.2.1 (by decide)

/-- C4: the confirmation answer is decided by the first input equal to
"yes" or "no" (exact, case-sensitive); other inputs re-prompt with no side
effects; without a "yes" no deletion is attempted; a first "no" at a real
prompt ends in the cancelled state with zero attempts; the spec's example
sequences behave as stated. -/
theorem c4_confirmation_gate (inputs : List Str) :
    confirmDeletion inputs
      = (inputs.find? (fun s => s == ("yes").data || s == ("no").data)).map
          (fun s => s == ("yes").data) ∧
    (∀ (x : Str) (rest : List Str), x ≠ ("yes").data → x ≠ ("no").data →
      confirmDeletion (x :: rest) = confirmDeletion rest) ∧
    (∀ (gitDelete : Str → Option Str) (bs : List Str) (c : Str),
      (("yes").data ∉ inputs →
        (confirmAndDeleteBranches gitDelete bs c inputs).attempts = []) ∧
      ((filterCurrentBranch bs c).1 ≠ [] →
        confirmDeletion inputs = some false →
        (confirmAndDeleteBranches gitDelete bs c inputs).result
            = RunResult.cancelled ∧
          (confirmAndDeleteBranches gitDelete bs c inputs).attempts = [])) ∧
    confirmDeletion [("maybe").data, ("no").data] = some false ∧
    confirmDeletion [("yes").data] = some true ∧
    confirmDeletion [("Yes").data] = none := by
  have hfind : ∀ (l : List Str), confirmDeletion l
      = (l.find? (fun s => s == ("yes").data || s == ("no").data)).map
          (fun s => s == ("yes").data) := by
    intro l
    induction l with
    | nil => rfl
    | cons i rest ih =>
      by_cases hy : i = ("yes").data
      · subst hy
        rw [confirmDeletion, if_pos (by simp)]
        rw [List.find?_cons_of_pos _ (by simp)]
        simp
      · by_cases hn : i = ("no").data
        · subst hn
          rw [confirmDeletion, if_neg (by decide), if_pos (by simp)]
          rw [List.find?_cons_of_pos _ (by simp)]
          simp [show ((("no").data == ("yes").data) : Bool) = false from by decide]
        · rw [confirmDeletion, if_neg (by simpa using hy),
            if_neg (by simpa using hn),
            List.find?_cons_of_neg _ (by simp [hy, hn]), ih]
  have hnoyes : ∀ (l : List Str), ("yes").data ∉ l →
      confirmDeletion l ≠ some true := by
    intro l hl
    rw [hfind l]
    intro hcontra
    cases hf : l.find? (fun s => s == ("yes").data || s == ("no").data) with
    | none => rw [hf] at hcontra; simp at hcontra
    | some s =>
      rw [hf] at hcontra
      simp only [Option.map_some, Option.some.injEq] at hcontra
      have : s = ("yes").data := by simpa using hcontra
      subst this
      exact hl (List.mem_of_find?_eq_some hf)
  refine ⟨hfind inputs, ?_, ?_, by decide, by decide, by decide⟩
  · intro x rest hx hn
    rw [confirmDeletion, if_neg (by simpa using hx), if_neg (by simpa using hn)]
  · intro gitDelete bs c
    constructor
    · intro hno
      rw [confirmAndDeleteBranches]
      simp only
      by_cases hemp : (filterCurrentBranch bs c).1 = []
      · rw [if_pos hemp]
      · rw [if_neg hemp]
        cases hcd : confirmDeletion inputs with
        | none => simp
        | some y =>
          cases y with
          | false => simp
          | true => exact absurd hcd (hnoyes inputs hno)
    · intro hemp hcd
      rw [confirmAndDeleteBranches]
      simp only
      rw [if_neg hemp, hcd]
      exact ⟨rfl, rfl⟩

/-- C4 witness: the cancelled-state part applied to the concrete sequence
["maybe","no"] over one candidate, and the no-yes part over ["maybe"]. -/
theorem c4_confirmation_gate_witness :
    (confirmAndDeleteBranches (fun _ => none) [("a").data] ("cur").data
        [("maybe").data, ("no").data]).result = RunResult.cancelled ∧
    (confirmAndDeleteBranches (fun _ => none) [("a").data] ("cur").data
        [("maybe").data]).attempts = [] := by
  constructor
  · exact (((c4_confirmation_gate [("maybe").data, ("no").data]).2.2.1
      (fun _ => none) [("a").data] ("cur").data).2 (by decide) (by decide)).1
  · exact ((c4_confirmation_gate [("maybe").data]).2.2.1
      (fun _ => none) [("a").data] ("cur").data).1 (by decide)

/-- `contains`: build a set (Go map keyed by the strings) from the slice,
then look the item up — i.e. exact-string membership. -/
def contains (slice : List Str) (item : Str) : Bool :=
  (slice.foldl (fun set s => if s ∈ set then set else set ++ [s]) []).contains item

theorem mem_containsSet (slice : List Str) (x : Str) :
    ∀ acc : List Str,
      (x ∈ slice.foldl (fun set s => if s ∈ set then set else set ++ [s]) acc
        ↔ (x ∈ acc ∨ x ∈ slice)) := by
  induction slice with
  | nil => simp
  | cons s rest ih =>
    intro acc
    rw [List.foldl_cons]
    by_cases hs : s ∈ acc
    · rw [if_pos hs, ih]
      constructor
      · rintro (h | h)
        · exact Or.inl h
        · exact Or.inr (List.mem_cons_of_mem s h)
      · rintro (h | h)
        · exact Or.inl h
        · rcases List.mem_cons.mp h with rfl | h
          · exact Or.inl hs
          · exact Or.inr h
    · rw [if_neg hs, ih]
      simp only [List.mem_append, List.mem_singleton, List.mem_cons]
      tauto

theorem contains_iff (slice : List Str) (item : Str) :
    contains slice item = true ↔ item ∈ slice := by
  rw [contains]
  simp only [List.contains]
  rw [List.elem_iff, mem_containsSet]
  simp

/-- The candidate computation of `keepBranches`: every non-empty branch of
the enumeration that is not in the keep-list, in enumeration order. -/
def keepBranches (allBranches branchesToKeep : List Str) : List Str :=
  allBranches.foldl
    (fun acc b =>
      if b != [] && !(contains branchesToKeep b) then acc ++ [b] else acc)
    []

theorem foldl_append_filter {α : Type} (p : α → Bool) (l : List α) :
    ∀ acc : List α,
      l.foldl (fun acc b => if p b then acc ++ [b] else acc) acc = acc ++ l.filter p := by
  induction l with
  | nil => simp
  | cons b rest ih =>
    intro acc
    rw [List.foldl_cons]
    cases hb : p b <;> simp [hb, ih]

/-- C6: for a non-empty keep-list, keep-list selection is exactly the
snapshot minus the keep-list (exact string equality, empty names excluded),
as a filter of the snapshot — so membership is as stated and the snapshot's
enumeration order is preserved. -/
theorem c6_keep_list_selection (S K : List Str) (hK : K ≠ []) :
    keepBranches S K = S.filter (fun b => decide (b ≠ []) && decide (b ∉ K)) ∧
    (∀ b, b ∈ keepBranches S K ↔ (b ∈ S ∧ b ≠ [] ∧ b ∉ K)) ∧
    (keepBranches S K).Sublist S := by
  have hpred : ∀ b : Str,
      (b != [] && !(contains K b)) = (decide (b ≠ []) && decide (b ∉ K)) := by
    intro b
    have h1 : (b != []) = decide (b ≠ []) := by
      cases b with
      | nil => simp
      | cons x xs => simp
    have h2 : (!(contains K b)) = decide (b ∉ K) := by
      cases hc : contains K b with
      | true => simp [(contains_iff K b).mp hc]
      | false =>
        have : b ∉ K := fun hm => by
          rw [(contains_iff K b).mpr hm] at hc
          cases hc
        simp [this]
    rw [h1, h2]
  have hmain : keepBranches S K
      = S.filter (fun b => decide (b ≠ []) && decide (b ∉ K)) := by
    rw [keepBranches, foldl_append_filter]
    simp only [List.nil_append]
    exact List.filter_congr (fun b _ => hpred b)
  refine ⟨hmain, ?_, ?_⟩
  · intro b
    rw [hmain]
    simp [List.mem_filter]
  · rw [hmain]
    exact List.filter_sublist S

/-- C6 witness: a concrete snapshot with an empty name and a kept branch. -/
theorem c6_keep_list_selection_witness :
    ("dev").data ∈ keepBranches [("main").data, [], ("dev").data] [("main").data] ∧
    ("main").data ∉ keepBranches [("main").data, [], ("dev").data] [("main").data] := by
  constructor
  · exact ((c6_keep_list_selection [("main").data, [], ("dev").data]
      [("main").data] (by decide)).2.1 (("dev").data)).mpr
      ⟨by decide, by decide, by decide⟩
  · intro hmem
    have := ((c6_keep_list_selection [("main").data, [], ("dev").data]
      [("main").data] (by decide)).2.1 (("main").data)).mp hmem
    exact this.2.2 (by decide)

theorem mem_mapInsert_weak (m : List (Str × Str)) (k v k1 v1 : Str)
    (h : (k1, v1) ∈ mapInsert m k v) : (k1 = k ∧ v1 = v) ∨ (k1, v1) ∈ m := by
  induction m with
  | nil =>
    simp [mapInsert] at h
    exact Or.inl ⟨h.1, h.2⟩
  | cons p rest ih =>
    obtain ⟨k0, v0⟩ := p
    rw [mapInsert] at h
    by_cases hk : k0 = k
    · rw [if_pos (by simpa using hk)] at h
      rcases List.mem_cons.mp h with heq | hmem
      · exact Or.inl (by simpa using heq)
      · exact Or.inr (List.mem_cons_of_mem _ hmem)
    · rw [if_neg (by simpa using hk)] at h
      rcases List.mem_cons.mp h with heq | hmem
      · exact Or.inr (by simp [heq])
      · rcases ih hmem with h1 | h2
        · exact Or.inl h1
        · exact Or.inr (List.mem_cons_of_mem _ h2)

theorem keys_mapInsert (m : List (Str × Str)) (k v : Str) :
    (mapInsert m k v).map Prod.fst
      = if k ∈ m.map Prod.fst then m.map Prod.fst else m.map Prod.fst ++ [k] := by
  induction m with
  | nil => simp [mapInsert]
  | cons p rest ih =>
    obtain ⟨k0, v0⟩ := p
    rw [mapInsert]
    by_cases hk : k0 = k
    · subst hk
      rw [if_pos (by simp), if_pos (by simp)]
      simp
    · rw [if_neg (by simpa using hk)]
      by_cases hmem : k ∈ rest.map Prod.fst
      · rw [if_pos (by simp [hmem])]
        simp [ih, hmem]
      · rw [if_neg (by simp [hmem, Ne.symm hk])]
        simp [ih, hmem]

theorem mem_mapInsert (m : List (Str × Str)) (k v k1 v1 : Str)
    (hnd : (m.map Prod.fst).Nodup) :
    (k1, v1) ∈ mapInsert m k v
      ↔ ((k1 = k ∧ v1 = v) ∨ ((k1, v1) ∈ m ∧ k1 ≠ k)) := by
  induction m with
  | nil => simp [mapInsert]
  | cons p rest ih =>
    obtain ⟨k0, v0⟩ := p
    rw [mapInsert]
    simp only [List.map_cons, List.nodup_cons] at hnd
    obtain ⟨hk0, hrest⟩ := hnd
    by_cases hk : k0 = k
    · subst hk
      rw [if_pos (by simp)]
      simp only [List.mem_cons, Prod.mk.injEq]
      have h1 : (k1, v1) ∈ rest → ¬(k1 = k0) := by
        intro hm heq
        exact hk0 (List.mem_map.mpr ⟨(k1, v1), hm, heq⟩)
      tauto
    · rw [if_neg (by simpa using hk)]
      simp only [List.mem_cons, Prod.mk.injEq, ih hrest]
      have h1 : k1 = k0 → ¬(k1 = k) := fun ha hb => hk (ha.symm.trans hb)
      tauto

theorem deleteBranchesLoop_inv (gitDelete : Str → Option Str) :
    ∀ (branches : List Str) (m : List (Str × Str)) (att : List Str),
      (m.map Prod.fst).Nodup →
      (∀ k v, (k, v) ∈ m → gitDelete k = some v) →
      (((branches.foldl
          (fun acc b =>
            match gitDelete b with
            | some msg => (mapInsert acc.1 b msg, acc.2 ++ [b])
            | none => (acc.1, acc.2 ++ [b])) (m, att)).1.map Prod.fst).Nodup ∧
        (∀ k v, ((k, v) ∈ (branches.foldl
          (fun acc b =>
            match gitDelete b with
            | some msg => (mapInsert acc.1 b msg, acc.2 ++ [b])
            | none => (acc.1, acc.2 ++ [b])) (m, att)).1
          ↔ ((k, v) ∈ m ∨ (k ∈ branches ∧ gitDelete k = some v))))) := by
  intro branches
  induction branches with
  | nil =>
    intro m att hnd hcons
    simp [hnd]
  | cons b rest ih =>
    intro m att hnd hcons
    rw [List.foldl_cons]
    cases hb : gitDelete b with
    | none =>
      simp only
      obtain ⟨ihnd, ihmem⟩ := ih m (att ++ [b]) hnd hcons
      refine ⟨ihnd, fun k v => ?_⟩
      rw [ihmem k v]
      constructor
      · rintro (hm | ⟨hk, hg⟩)
        · exact Or.inl hm
        · exact Or.inr ⟨List.mem_cons_of_mem _ hk, hg⟩
      · rintro (hm | ⟨hk, hg⟩)
        · exact Or.inl hm
        · rcases List.mem_cons.mp hk with rfl | hk
          · rw [hb] at hg
            cases hg
          · exact Or.inr ⟨hk, hg⟩
    | some msg =>
      simp only
      have hnd' : ((mapInsert m b msg).map Prod.fst).Nodup := by
        rw [keys_mapInsert]
        by_cases hmem : b ∈ m.map Prod.fst
        · rw [if_pos hmem]
          exact hnd
        · rw [if_neg hmem]
          simp [List.nodup_append, hnd, hmem]
      have hcons' : ∀ k v, (k, v) ∈ mapInsert m b msg → gitDelete k = some v := by
        intro k v hm
        rcases mem_mapInsert_weak m b msg k v hm with ⟨rfl, rfl⟩ | hm2
        · exact hb
        · exact hcons k v hm2
      obtain ⟨ihnd, ihmem⟩ := ih (mapInsert m b msg) (att ++ [b]) hnd' hcons'
      refine ⟨ihnd, fun k v => ?_⟩
      rw [ihmem k v, mem_mapInsert m b msg k v hnd]
      constructor
      · rintro ((⟨rfl, rfl⟩ | ⟨hm, hne⟩) | ⟨hk, hg⟩)
        · exact Or.inr ⟨List.mem_cons_self _ _, hb⟩
        · exact Or.inl hm
        · exact Or.inr ⟨List.mem_cons_of_mem _ hk, hg⟩
      · rintro (hm | ⟨hk, hg⟩)
        · by_cases hkb : k = b
          · subst hkb
            have := hcons k v hm
            rw [hb] at this
            exact Or.inl (Or.inl ⟨rfl, by simpa using this.symm⟩)
          · exact Or.inl (Or.inr ⟨hm, hkb⟩)
        · rcases List.mem_cons.mp hk with rfl | hk
          · rw [hb] at hg
            exact Or.inl (Or.inl ⟨rfl, by simpa using hg.symm⟩)
          · exact Or.inr ⟨hk, hg⟩

theorem deleteBranches_failed_iff (gitDelete : Str → Option Str)
    (toDelete : List Str) :
    ((deleteBranches gitDelete toDelete).failed.map Prod.fst).Nodup ∧
    (∀ k v, ((k, v) ∈ (deleteBranches gitDelete toDelete).failed
      ↔ (k ∈ toDelete ∧ gitDelete k = some v))) := by
  obtain ⟨hnd, hmem⟩ :=
    deleteBranchesLoop_inv gitDelete toDelete [] [] (by simp) (by simp)
  refine ⟨hnd, fun k v => ?_⟩
  rw [show (deleteBranches gitDelete toDelete).failed
      = (deleteBranchesLoop gitDelete toDelete).1 from rfl]
  rw [deleteBranchesLoop, hmem k v]
  simp

theorem nodup_length_eq_of_mem_iff {α : Type} [DecidableEq α]
    {l1 l2 : List α} (h1 : l1.Nodup) (h2 : l2.Nodup)
    (h : ∀ x, x ∈ l1 ↔ x ∈ l2) : l1.length = l2.length := by
  rw [← List.toFinset_card_of_nodup h1, ← List.toFinset_card_of_nodup h2]
  congr 1
  ext x
  simp [h x]

theorem deleteBranches_failed_length (gitDelete : Str → Option Str)
    (toDelete : List Str) :
    (deleteBranches gitDelete toDelete).failed.length
      = ((toDelete.filter (fun b => (gitDelete b).isSome)).dedup).length := by
  obtain ⟨hnd, hmem⟩ := deleteBranches_failed_iff gitDelete toDelete
  have hlen : (deleteBranches gitDelete toDelete).failed.length
      = ((deleteBranches gitDelete toDelete).failed.map Prod.fst).length := by
    simp
  rw [hlen]
  apply nodup_length_eq_of_mem_iff hnd (List.nodup_dedup _)
  intro k
  simp only [List.mem_map, List.mem_dedup, List.mem_filter]
  constructor
  · rintro ⟨⟨k1, v1⟩, hp, rfl⟩
    obtain ⟨ht, hg⟩ := (hmem k1 v1).mp hp
    exact ⟨ht, by simp [hg]⟩
  · rintro ⟨ht, hg⟩
    obtain ⟨v, hv⟩ := Option.isSome_iff_exists.mp (by simpa using hg)
    exact ⟨(k, v), (hmem k v).mpr ⟨ht, hv⟩, rfl⟩

theorem filter_success_eq (gitDelete : Str → Option Str) (toDelete : List Str) :
    toDelete.filter (fun b => gitDelete b == none)
      = toDelete.filter (fun b => !((gitDelete b).isSome)) :=
  List.filter_congr (fun b _ => by cases gitDelete b <;> simp)

theorem filter_partition_length (gitDelete : Str → Option Str) (toDelete : List Str) :
    (toDelete.filter (fun b => (gitDelete b).isSome)).length
      + (toDelete.filter (fun b => !((gitDelete b).isSome))).length
      = toDelete.length :=
  (List.length_eq_length_filter_add _).symm

/-- C5: every confirmed candidate is attempted, in order, with no early
abort; each failure is recorded with its message in the report's failure
map; the report carries the batch's total; for duplicate-free candidate
lists the deleted count is the number of successful deletions; and the
spec's 3-candidate example (second fails) reports 2 out of 3 with one
failure while all 3 are attempted. -/
theorem c5_batch_no_early_abort (gitDelete : Str → Option Str) (toDelete : List Str) :
    (deleteBranches gitDelete toDelete).attempts = toDelete ∧
    (∀ k v, ((k, v) ∈ (deleteBranches gitDelete toDelete).failed
      ↔ (k ∈ toDelete ∧ gitDelete k = some v))) ∧
    (deleteBranches gitDelete toDelete).total = toDelete.length ∧
    (toDelete.Nodup →
      (deleteBranches gitDelete toDelete).deletedCount
        = ((toDelete.filter (fun b => gitDelete b == none)).length : Int)) ∧
    deleteBranches
        (fun b => if b == ("b2").data then some (("boom").data) else none)
        [("b1").data, ("b2").data, ("b3").data]
      = ⟨3, 2, [(("b2").data, ("boom").data)],
          [("b1").data, ("b2").data, ("b3").data]⟩ := by
  refine ⟨?_, (deleteBranches_failed_iff gitDelete toDelete).2, rfl, ?_, by decide⟩
  · show (deleteBranchesLoop gitDelete toDelete).2 = toDelete
    exact deleteBranchesLoop_attempts gitDelete toDelete
  · intro hnd
    have hlen := deleteBranches_failed_length gitDelete toDelete
    have hfnd : (toDelete.filter (fun b => (gitDelete b).isSome)).Nodup :=
      hnd.filter _
    rw [List.dedup_eq_self.mpr hfnd] at hlen
    have hpart := filter_partition_length gitDelete toDelete
    have hdc : (deleteBranches gitDelete toDelete).deletedCount
        = (toDelete.length : Int)
          - (deleteBranches gitDelete toDelete).failed.length := rfl
    rw [hdc, hlen, filter_success_eq]
    omega

/-- C5 witness: the duplicate-free count statement at the 3-candidate
example. -/
theorem c5_batch_no_early_abort_witness :
    ([("b1").data, ("b2").data, ("b3").data] : List Str).Nodup ∧
    (deleteBranches
        (fun b => if b == ("b2").data then some (("boom").data) else none)
        [("b1").data, ("b2").data, ("b3").data]).deletedCount = 2 := by
  refine ⟨by decide, ?_⟩
  rw [(c5_batch_no_early_abort
    (fun b => if b == ("b2").data then some (("boom").data) else none)
    [("b1").data, ("b2").data, ("b3").data]).2.2.2.1 (by decide)]
  decide

/-- C10: the failure map is keyed by branch name, so its size is the
number of distinct failing names and the reported deleted count is the
total minus that number; when a failing name occurs more than once among
the candidates, the reported count strictly exceeds the number of
successful deletions, and the repeated failure appears only once. -/
theorem c10_failure_map_distinct (gitDelete : Str → Option Str) (toDelete : List Str) :
    ((deleteBranches gitDelete toDelete).failed.map Prod.fst).Nodup ∧
    (deleteBranches gitDelete toDelete).failed.length
      = ((toDelete.filter (fun b => (gitDelete b).isSome)).dedup).length ∧
    (deleteBranches gitDelete toDelete).deletedCount
      = (toDelete.length : Int)
        - ((toDelete.filter (fun b => (gitDelete b).isSome)).dedup).length ∧
    (¬ (toDelete.filter (fun b => (gitDelete b).isSome)).Nodup →
      ((toDelete.filter (fun b => gitDelete b == none)).length : Int)
        < (deleteBranches gitDelete toDelete).deletedCount) ∧
    deleteBranches (fun _ => some (("err").data)) [("x").data, ("x").data]
      = ⟨2, 1, [(("x").data, ("err").data)], [("x").data, ("x").data]⟩ := by
  have hlen := deleteBranches_failed_length gitDelete toDelete
  have hdc : (deleteBranches gitDelete toDelete).deletedCount
      = (toDelete.length : Int)
        - (deleteBranches gitDelete toDelete).failed.length := rfl
  refine ⟨(deleteBranches_failed_iff gitDelete toDelete).1, hlen, ?_, ?_, by decide⟩
  · rw [hdc, hlen]
  · intro hnotnodup
    have hded : ((toDelete.filter (fun x => (gitDelete x).isSome)).dedup).length
        < (toDelete.filter (fun x => (gitDelete x).isSome)).length := by
      have hsub := List.dedup_sublist (toDelete.filter (fun x => (gitDelete x).isSome))
      rcases lt_or_eq_of_le hsub.length_le with hlt | heq
      · exact hlt
      · exfalso
        have hEq := hsub.eq_of_length heq
        exact hnotnodup (hEq ▸ List.nodup_dedup _)
    have hpart := filter_partition_length gitDelete toDelete
    rw [hdc, hlen, filter_success_eq]
    omega

/-- C10 witness: a candidate listed twice whose deletion fails both times
makes the report claim one deletion although none succeeded. -/
theorem c10_failure_map_distinct_witness :
    (0 : Int) < (deleteBranches (fun _ => some (("err").data))
      [("x").data, ("x").data]).deletedCount := by
  have h := (c10_failure_map_distinct (fun _ => some (("err").data))
    [("x").data, ("x").data]).2.2.2.1 (by decide)
  simpa using h

/-- Lexicographic (byte/codepoint) string comparison, the order
`sort.Strings` sorts by. -/
def strLe : Str → Str → Bool
  | [], _ => true
  | _ :: _, [] => false
  | a :: as, b :: bs => if a = b then strLe as bs else decide (a < b)

/-- Insertion of a string into a sorted list, by `strLe`. -/
def insertSorted (x : Str) : List Str → List Str
  | [] => [x]
  | y :: ys => if strLe x y then x :: y :: ys else y :: insertSorted x ys

/-- `sort.Strings`: since equal strings are identical, the sorted
permutation is unique and insertion sort computes exactly it. -/
def sortStrings (l : List Str) : List Str := l.foldr insertSorted []

/-- `strconv.Atoi`: an optional sign followed by at least one digit
(the int64 range check is disregarded; every offending value is out of
range of any branch list anyway, taking the same warn-and-skip path). -/
def digitsValAux : Str → Nat → Option Nat
  | [], acc => some acc
  | c :: rest, acc =>
    if c.isDigit then digitsValAux rest (acc * 10 + (c.toNat - 48)) else none

def atoi : Str → Option Int
  | [] => none
  | '+' :: ds =>
    if ds = [] then none else (digitsValAux ds 0).map (fun n => (n : Int))
  | '-' :: ds =>
    if ds = [] then none else (digitsValAux ds 0).map (fun n => -(n : Int))
  | ds => (digitsValAux ds 0).map (fun n => (n : Int))

/-- The non-fatal warnings of `deleteBranchesByIndexes`, one per offending
token, carrying the (trimmed) token text. -/
inductive Warning
  | invalidRangeFormat (tok : Str)
  | invalidRangeNumbers (tok : Str)
  | rangeOutOfBounds (tok : Str)
  | invalidIndex (tok : Str)
  | indexOutOfBounds (tok : Str)
deriving DecidableEq

/-- One iteration of the token loop of `deleteBranchesByIndexes` over the
sorted branch list: the branches the token selects and its warning, if
any. An empty trimmed token is skipped silently by the loop's early
`continue`; a token containing `-` is treated as a range; the index
arithmetic is 1-based with the bounds checks of the source. -/
def processToken (branches : List Str) (tok0 : Str) : List Str × Option Warning :=
  let tok := trimSpace tok0
  if tok = [] then ([], none)
  else if tok.contains '-' then
    match splitOnChar '-' tok with
    | [p1, p2] =>
      match atoi (trimSpace p1), atoi (trimSpace p2) with
      | some a, some b =>
        let s := a - 1
        let e := b - 1
        if s < 0 || (branches.length : Int) ≤ e || e < s then
          ([], some (.rangeOutOfBounds tok))
        else ((branches.drop s.toNat).take (e - s + 1).toNat, none)
      | _, _ => ([], some (.invalidRangeNumbers tok))
    | _ => ([], some (.invalidRangeFormat tok))
  else
    match atoi tok with
    | some n =>
      let i := n - 1
      if i < 0 || (branches.length : Int) ≤ i then
        ([], some (.indexOutOfBounds tok))
      else ((branches.drop i.toNat).take 1, none)
    | none => ([], some (.invalidIndex tok))

/-- The selection phase of `deleteBranchesByIndexes`: sort the snapshot,
split the spec on commas and fold the token loop, accumulating selected
branches and warnings in order. -/
def indexSelection (branches : List Str) (spec : Str) : List Str × List Warning :=
  let sorted := sortStrings branches
  (splitOnChar ',' spec).foldl
    (fun acc tok =>
      let r := processToken sorted tok
      (acc.1 ++ r.1, acc.2 ++ r.2.toList))
    ([], [])

theorem indexSelection_foldl (sorted : List Str) (toks : List Str) :
    ∀ acc : List Str × List Warning,
      toks.foldl
        (fun acc tok =>
          let r := processToken sorted tok
          (acc.1 ++ r.1, acc.2 ++ r.2.toList)) acc
      = (acc.1 ++ (toks.map (fun t => (processToken sorted t).1)).flatten,
         acc.2 ++ toks.filterMap (fun t => (processToken sorted t).2)) := by
  induction toks with
  | nil => simp
  | cons t rest ih =>
    intro acc
    rw [List.foldl_cons, ih]
    cases hw : (processToken sorted t).2 <;>
      simp [List.filterMap_cons, hw]

theorem splitOnChar_of_not_contains (sep : Char) (s : Str)
    (h : s.contains sep = false) : splitOnChar sep s = [s] := by
  induction s with
  | nil => rfl
  | cons c rest ih =>
    simp only [List.contains_cons, Bool.or_eq_false_iff] at h
    obtain ⟨hc, hrest⟩ := h
    rw [splitOnChar, if_neg (Ne.symm (by simpa using hc)), ih hrest]

/-- C3: index selection sorts the snapshot lexicographically, splits the
spec on commas and concatenates the per-token selections in token order
(so overlapping tokens keep their duplicates); a valid bare integer `n`
selects exactly the branch at 1-based sorted position `n`; a valid range
`a-b` selects exactly the branches at the 1-based sorted positions `a`
through `b` inclusive; and the spec's examples come out as stated. -/
theorem c3_index_spec_selection (branches : List Str) (spec : Str) :
    (indexSelection branches spec).1
      = ((splitOnChar ',' spec).map
          (fun t => (processToken (sortStrings branches) t).1)).flatten ∧
    (∀ t n, (trimSpace t).contains '-' = false →
      atoi (trimSpace t) = some n → 1 ≤ n →
      n ≤ ((sortStrings branches).length : Int) →
      (processToken (sortStrings branches) t).2 = none ∧
      ((processToken (sortStrings branches) t).1).length = 1 ∧
      ((processToken (sortStrings branches) t).1)[0]?
        = (sortStrings branches)[n.toNat - 1]?) ∧
    (∀ t p1 p2 a b, splitOnChar '-' (trimSpace t) = [p1, p2] →
      atoi (trimSpace p1) = some a → atoi (trimSpace p2) = some b →
      1 ≤ a → a ≤ b → b ≤ ((sortStrings branches).length : Int) →
      (processToken (sortStrings branches) t).2 = none ∧
      (((processToken (sortStrings branches) t).1).length : Int) = b - a + 1 ∧
      (∀ i : Nat, (i : Int) < b - a + 1 →
        ((processToken (sortStrings branches) t).1)[i]?
          = (sortStrings branches)[a.toNat - 1 + i]?)) ∧
    sortStrings [("d").data, ("c").data, ("b").data, ("a").data]
      = [("a").data, ("b").data, ("c").data, ("d").data] ∧
    (indexSelection [("d").data, ("c").data, ("b").data, ("a").data]
      ("2,4").data).1 = [("b").data, ("d").data] ∧
    (indexSelection [("d").data, ("c").data, ("b").data, ("a").data]
      ("1-3").data).1 = [("a").data, ("b").data, ("c").data] ∧
    (indexSelection [("a").data, ("b").data, ("c").data, ("d").data]
      ("2,2").data).1 = [("b").data, ("b").data] := by
  refine ⟨?_, ?_, ?_, by decide, by decide, by decide, by decide⟩
  · simp only [indexSelection]
    rw [indexSelection_foldl]
    simp
  · intro t n hnd hatoi h1 h2
    have htne : trimSpace t ≠ [] := by
      intro he
      rw [he] at hatoi
      simp [atoi] at hatoi
    have hnd2 : '-' ∉ trimSpace t := by simpa using hnd
    have hb1 : ¬(n < 1) := by omega
    have hb1a : ¬(n - 1 < 0) := by omega
    have hb2 : ¬(((sortStrings branches).length : Int) ≤ n - 1) := by omega
    have hres : processToken (sortStrings branches) t
        = (((sortStrings branches).drop (n.toNat - 1)).take 1, none) := by
      rw [processToken]
      simp [htne, hnd, hnd2, hatoi, hb1, hb1a, hb2]
    have hklt : n.toNat - 1 < (sortStrings branches).length := by omega
    refine ⟨by rw [hres], ?_, ?_⟩
    · rw [hres]
      simp only [List.length_take, List.length_drop]
      omega
    · rw [hres]
      rw [List.getElem?_take, if_pos (by omega), List.getElem?_drop,
        Nat.add_zero]
  · intro t p1 p2 a b hsplit hatoi1 hatoi2 h1 hab h2
    have htne : trimSpace t ≠ [] := by
      intro he
      rw [he] at hsplit
      simp [splitOnChar] at hsplit
    have hcont : (trimSpace t).contains '-' = true := by
      by_contra hc
      rw [splitOnChar_of_not_contains '-' (trimSpace t)
        (by simpa using hc)] at hsplit
      simp at hsplit
    have hb1 : ¬(a < 1) := by omega
    have hb1a : ¬(a - 1 < 0) := by omega
    have hb2 : ¬(((sortStrings branches).length : Int) ≤ b - 1) := by omega
    have hb3 : ¬((b : Int) < a) := by omega
    have hb3a : ¬((b : Int) - 1 < a - 1) := by omega
    have hcont2 : '-' ∈ trimSpace t := by simpa using hcont
    have hres : processToken (sortStrings branches) t
        = (((sortStrings branches).drop (a.toNat - 1)).take
            (b - a + 1).toNat, none) := by
      rw [processToken]
      simp [htne, hcont, hcont2, hsplit, hatoi1, hatoi2, hb1, hb1a, hb2,
        hb3, hb3a]
    refine ⟨by rw [hres], ?_, ?_⟩
    · rw [hres]
      simp only [List.length_take, List.length_drop]
      omega
    · intro i hi
      rw [hres]
      rw [List.getElem?_take, if_pos (by omega), List.getElem?_drop]

/-- C3 witness: the bare-integer and range parts applied over a concrete
four-branch snapshot. -/
theorem c3_index_spec_selection_witness :
    (processToken (sortStrings [("a").data, ("b").data, ("c").data, ("d").data])
        ("2").data).1[0]?
      = some (("b").data) ∧
    ((processToken (sortStrings [("a").data, ("b").data, ("c").data, ("d").data])
        ("1-3").data).1.length : Int) = 3 := by
  constructor
  · have h := ((c3_index_spec_selection
      [("a").data, ("b").data, ("c").data, ("d").data] ("2").data).2.1
      (("2").data) 2 (by decide) (by decide) (by decide) (by decide)).2.2
    rw [h]
    decide
  · have h := ((c3_index_spec_selection
      [("a").data, ("b").data, ("c").data, ("d").data] ("1-3").data).2.2.1
      (("1-3").data) (("1").data) (("3").data) 1 3 (by decide) (by decide)
      (by decide) (by decide) (by decide) (by decide)).2.1
    rw [h]
    decide

theorem processToken_shape (br : List Str) (t : Str) :
    (processToken br t).2 = none ∨ (processToken br t).1 = [] := by
  rw [processToken]
  by_cases h0 : trimSpace t = []
  · simp [h0]
  · rw [if_neg h0]
    by_cases hc : (trimSpace t).contains '-' = true
    · rw [if_pos hc]
      cases hsp : splitOnChar '-' (trimSpace t) with
      | nil => simp
      | cons p ps =>
        cases ps with
        | nil => simp
        | cons q qs =>
          cases qs with
          | nil =>
            cases ha : atoi (trimSpace p) <;> cases hb : atoi (trimSpace q)
            · simp [ha, hb]
            · simp [ha, hb]
            · simp [ha, hb]
            · simp only [ha, hb]
              split_ifs <;> simp
          | cons r rs => simp
    · rw [if_neg hc]
      cases ha : atoi (trimSpace t) with
      | none => simp [ha]
      | some n =>
        simp only [ha]
        split_ifs <;> simp

/-- C7 counterexample: the spec "," is a valid index spec (so it reaches
index mode) and splits into two empty tokens; an empty token is neither a
range nor numeric (`strconv.Atoi` rejects the empty string), yet the run
emits no warning at all — the claim that every non-numeric token warns
fails on empty tokens. -/
theorem c7_claim_counterexample :
    isIndexSpec (",").data = true ∧
    splitOnChar ',' (",").data = [[], []] ∧
    trimSpace ([] : Str) = [] ∧ atoi ([] : Str) = none ∧
    ([] : Str).contains '-' = false ∧
    indexSelection [("a").data, ("b").data, ("c").data, ("d").data] (",").data
      = ([], []) := by decide

/-- C7 (amended): warnings are exactly the per-token warnings in token
order; an empty trimmed token is skipped silently with no warning; a token
that warns contributes no selection; every NON-empty non-range token that
is non-numeric or out of range warns as such, and an inverted range warns;
valid tokens elsewhere in the spec are still honored (the concrete "5,2"
example), and the spec's "5" and "2-1" examples come out as stated. -/
theorem c7_invalid_tokens (branches : List Str) (spec : Str) :
    (indexSelection branches spec).2
      = (splitOnChar ',' spec).filterMap
          (fun t => (processToken (sortStrings branches) t).2) ∧
    (∀ t, trimSpace t = [] →
      processToken (sortStrings branches) t = ([], none)) ∧
    (∀ t, (processToken (sortStrings branches) t).2 = none ∨
      (processToken (sortStrings branches) t).1 = []) ∧
    (∀ t, trimSpace t ≠ [] → (trimSpace t).contains '-' = false →
      atoi (trimSpace t) = none →
      processToken (sortStrings branches) t
        = ([], some (Warning.invalidIndex (trimSpace t)))) ∧
    (∀ t n, (trimSpace t).contains '-' = false →
      atoi (trimSpace t) = some n →
      (n < 1 ∨ ((sortStrings branches).length : Int) < n) →
      processToken (sortStrings branches) t
        = ([], some (Warning.indexOutOfBounds (trimSpace t)))) ∧
    (∀ t p1 p2 a b, splitOnChar '-' (trimSpace t) = [p1, p2] →
      atoi (trimSpace p1) = some a → atoi (trimSpace p2) = some b → b < a →
      processToken (sortStrings branches) t
        = ([], some (Warning.rangeOutOfBounds (trimSpace t)))) ∧
    indexSelection [("a").data, ("b").data, ("c").data, ("d").data] ("5").data
      = ([], [Warning.indexOutOfBounds ("5").data]) ∧
    indexSelection [("a").data, ("b").data, ("c").data, ("d").data] ("2-1").data
      = ([], [Warning.rangeOutOfBounds ("2-1").data]) ∧
    indexSelection [("a").data, ("b").data, ("c").data, ("d").data] ("5,2").data
      = ([("b").data], [Warning.indexOutOfBounds ("5").data]) := by
  refine ⟨?_, ?_, fun t => processToken_shape (sortStrings branches) t, ?_, ?_, ?_,
    by decide, by decide, by decide⟩
  · simp only [indexSelection]
    rw [indexSelection_foldl]
    simp
  · intro t h
    rw [processToken]
    simp [h]
  · intro t htne hnd hatoi
    have hnd2 : '-' ∉ trimSpace t := by simpa using hnd
    rw [processToken]
    simp [htne, hnd, hnd2, hatoi]
  · intro t n hnd hatoi hrange
    have htne : trimSpace t ≠ [] := by
      intro he
      rw [he] at hatoi
      simp [atoi] at hatoi
    have hnd2 : '-' ∉ trimSpace t := by simpa using hnd
    have hcond : (n < 1 ∨ ((sortStrings branches).length : Int) ≤ n - 1) := by
      omega
    rw [processToken]
    simp [htne, hnd, hnd2, hatoi, hcond]
  · intro t p1 p2 a b hsplit hatoi1 hatoi2 hba
    have htne : trimSpace t ≠ [] := by
      intro he
      rw [he] at hsplit
      simp [splitOnChar] at hsplit
    have hcont : (trimSpace t).contains '-' = true := by
      by_contra hc
      rw [splitOnChar_of_not_contains '-' (trimSpace t)
        (by simpa using hc)] at hsplit
      simp at hsplit
    have hcont2 : '-' ∈ trimSpace t := by simpa using hcont
    have hcond : ((a < 1 ∨ ((sortStrings branches).length : Int) ≤ b - 1)
        ∨ b < a) := Or.inr hba
    rw [processToken]
    simp [htne, hcont, hcont2, hsplit, hatoi1, hatoi2, hcond]

/-- C7 witness: the empty-token and out-of-range parts applied at concrete
tokens over a concrete snapshot. -/
theorem c7_invalid_tokens_witness :
    processToken (sortStrings [("a").data, ("b").data]) [] = ([], none) ∧
    processToken (sortStrings [("a").data, ("b").data]) ("5").data
      = ([], some (Warning.indexOutOfBounds ("5").data)) := by
  constructor
  · exact (c7_invalid_tokens [("a").data, ("b").data] (",").data).2.1 []
      (by decide)
  · exact (c7_invalid_tokens [("a").data, ("b").data] ("5").data).2.2.2.2.1
      (("5").data) 5 (by decide) (by decide) (by decide)

end GGM
